import Mathlib

/-!
Verification of the nutag tag model and increment policy (src/src/main.rs).

The embedding models Rust strings as Lean `String` / `List Char` (Rust's
byte-wise `str` ordering coincides with code-point lexicographic ordering
because UTF-8 preserves code-point order), Rust `u64` / `i32` as `Nat` / `Int`
with the bounds the source checks made explicit, and fallible parsing as
`Option`.
-/

namespace Nutag

/-- Comparison of natural numbers, as Rust's `u64::cmp` / `usize::cmp`. -/
def natCmp (a b : Nat) : Ordering :=
  if a < b then .lt else if a = b then .eq else .gt

/-- Comparison of characters by code point, as Rust's byte comparison. -/
def charCmp (a b : Char) : Ordering :=
  natCmp a.toNat b.toNat

/-- Lexicographic comparison of character lists, as Rust's `str` / byte-slice
`Ord` (shorter list sorts first when one is an initial segment of the other). -/
def strCmp : List Char → List Char → Ordering
  | [], [] => .eq
  | [], _ :: _ => .lt
  | _ :: _, [] => .gt
  | a :: as, b :: bs => (charCmp a b).then (strCmp as bs)

/-- Comparison of optional strings, as Rust's derived `Ord` on
`Option<String>`: `None` sorts before `Some`. -/
def optStrCmp : Option String → Option String → Ordering
  | none, none => .eq
  | none, some _ => .lt
  | some _, none => .gt
  | some a, some b => strCmp a.data b.data

/-- Splitting at every dot, as Rust's `str::split('.')` (an empty string
yields one empty piece). -/
def splitDots : List Char → List (List Char)
  | [] => [[]]
  | c :: rest =>
    if c = '.' then [] :: splitDots rest
    else
      match splitDots rest with
      | g :: gs => (c :: g) :: gs
      | [] => [[c]]

/-- One semver prerelease identifier comparison, as in `semver`'s
`Ord for Prerelease`: two numeric identifiers compare by length then bytes,
numeric sorts below alphanumeric, two alphanumerics compare by bytes. -/
def identCmp (a b : List Char) : Ordering :=
  match a.all Char.isDigit, b.all Char.isDigit with
  | true, true => (natCmp a.length b.length).then (strCmp a b)
  | true, false => .lt
  | false, true => .gt
  | false, false => strCmp a b

/-- The identifier loop of `semver`'s `Ord for Prerelease`: pairwise identifier
comparison, a longer identifier list winning a tie on the common part. -/
def preIdentsCmp : List (List Char) → List (List Char) → Ordering
  | _ :: _, [] => .gt
  | [], [] => .eq
  | [], _ :: _ => .lt
  | a :: as, b :: bs =>
    match identCmp a b with
    | .eq => preIdentsCmp as bs
    | o => o

/-- `semver`'s `Ord for Prerelease`: the empty prerelease (a real release)
sorts above any non-empty one; otherwise compare dot-separated identifiers. -/
def preCmp (a b : String) : Ordering :=
  if a.data = [] then (if b.data = [] then .eq else .gt)
  else if b.data = [] then .lt
  else preIdentsCmp (splitDots a.data) (splitDots b.data)

/-- One build-metadata identifier comparison, as in `semver`'s
`Ord for BuildMetadata` (numeric identifiers may have leading zeros there:
compare the zero-trimmed value, then the untrimmed length). -/
def buildIdentCmp (a b : List Char) : Ordering :=
  match a.all Char.isDigit, b.all Char.isDigit with
  | true, true =>
    (natCmp (a.dropWhile (· == '0')).length (b.dropWhile (· == '0')).length).then
      ((strCmp (a.dropWhile (· == '0')) (b.dropWhile (· == '0'))).then
        (natCmp a.length b.length))
  | true, false => .lt
  | false, true => .gt
  | false, false => strCmp a b

/-- The identifier loop of `semver`'s `Ord for BuildMetadata`. -/
def buildIdentsCmp : List (List Char) → List (List Char) → Ordering
  | _ :: _, [] => .gt
  | [], [] => .eq
  | [], _ :: _ => .lt
  | a :: as, b :: bs =>
    match buildIdentCmp a b with
    | .eq => buildIdentsCmp as bs
    | o => o

/-- `semver`'s `Ord for BuildMetadata`. -/
def buildCmp (a b : String) : Ordering :=
  buildIdentsCmp (splitDots a.data) (splitDots b.data)

/-- `semver::Version`: major.minor.patch plus prerelease and build metadata.
The numeric components are `u64` in Rust; the parser below enforces the
`2 ^ 64 - 1` bound exactly where the Rust parser does. -/
structure Version where
  major : Nat
  minor : Nat
  patch : Nat
  pre : String
  build : String
deriving DecidableEq

/-- `semver`'s `Ord for Version`: major, minor, patch, prerelease, then build
metadata. -/
def versionCmp (a b : Version) : Ordering :=
  (natCmp a.major b.major).then
    ((natCmp a.minor b.minor).then
      ((natCmp a.patch b.patch).then
        ((preCmp a.pre b.pre).then (buildCmp a.build b.build))))

/-- The `Tag` struct: an optional namespace before `@` (`prefix` in the
source; `prefix` is a Lean keyword, hence `pfx`) plus a semver version. -/
structure Tag where
  pfx : Option String
  v : Version
deriving DecidableEq

/-- The derived `Ord for Tag`: fields in declaration order, so the `prefix`
field is compared first and the version only on equal prefixes. -/
def tagCmp (a b : Tag) : Ordering :=
  (optStrCmp a.pfx b.pfx).then (versionCmp a.v b.v)

/-- `tagCmp` interpreted as strict less-than, as used by `Vec::sort`. -/
def tagLt (a b : Tag) : Prop :=
  tagCmp a b = .lt

instance (a b : Tag) : Decidable (tagLt a b) :=
  inferInstanceAs (Decidable (tagCmp a b = .lt))

/-- Boolean less-or-equal on tags, the comparison a stable sort consults. -/
def tagLe (a b : Tag) : Bool :=
  !(tagCmp a b == Ordering.gt)

/-- `Tag::initial()`: version `0.1.0`, no prerelease, no prefix. -/
def Tag.initial : Tag :=
  ⟨none, ⟨0, 1, 0, "", ""⟩⟩

/-- `Tag::is_prelease()` (sic): the prerelease label is non-empty. -/
def Tag.is_prelease (t : Tag) : Bool :=
  !(t.v.pre == "")

/-- The digit-accumulating loop of `semver`'s `numeric_identifier`: rejects a
leading zero followed by another digit and rejects `u64` overflow, and stops
at the first non-digit, failing when no digit was read. -/
def numGo : List Char → Nat → Nat → Option (Nat × List Char)
  | [], value, len => if 0 < len then some (value, []) else none
  | c :: rest, value, len =>
    if c.isDigit then
      if value = 0 ∧ 0 < len then none
      else
        if value * 10 + (c.toNat - 48) ≤ 2 ^ 64 - 1 then
          numGo rest (value * 10 + (c.toNat - 48)) (len + 1)
        else none
    else if 0 < len then some (value, c :: rest) else none

/-- `semver`'s `numeric_identifier`. -/
def numericIdent (s : List Char) : Option (Nat × List Char) :=
  numGo s 0 0

/-- A character allowed inside a semver identifier: ASCII alphanumeric or
hyphen. -/
def isIdentChar (c : Char) : Bool :=
  c.isAlphanum || c == '-'

/-- Whether a list starts with a digit (the stopping condition of the numeric
loop). -/
def headDigit : List Char → Bool
  | [] => false
  | c :: _ => c.isDigit

/-- Whether a prerelease segment violates the no-leading-zero rule: in
prerelease position, longer than one character, purely numeric, starting
with `'0'`. -/
def badZero (prePos : Bool) (seg : List Char) : Bool :=
  prePos && decide (1 < seg.length) && seg.all Char.isDigit && seg.head? == some '0'

/-- `semver`'s `identifier` parser: consumes dot-separated identifier
segments, failing on an empty segment or (in prerelease position) a numeric
segment with a leading zero; returns the consumed text and the rest.  `seg`
is the current segment read so far and `out` the text consumed before it. -/
def identsGo (prePos : Bool) (seg out : List Char) :
    List Char → Option (List Char × List Char)
  | [] =>
    if seg = [] then (if out = [] then some ([], []) else none)
    else if badZero prePos seg then none
    else some (out ++ seg, [])
  | c :: rest =>
    if isIdentChar c then identsGo prePos (seg ++ [c]) out rest
    else if c = '.' then
      if seg = [] then none
      else if badZero prePos seg then none
      else identsGo prePos [] (out ++ seg ++ ['.']) rest
    else
      if seg = [] then (if out = [] then some ([], c :: rest) else none)
      else if badZero prePos seg then none
      else some (out ++ seg, c :: rest)

/-- The optional `-<prerelease>` part of `Version::from_str`: after `'-'` the
identifier run must be non-empty. -/
def parsePre : List Char → Option (List Char × List Char)
  | '-' :: r =>
    match identsGo true [] [] r with
    | some (pre, rest) => if pre = [] then none else some (pre, rest)
    | none => none
  | r => some ([], r)

/-- The optional `+<build>` part of `Version::from_str`. -/
def parseBuild : List Char → Option (List Char × List Char)
  | '+' :: r =>
    match identsGo false [] [] r with
    | some (b, rest) => if b = [] then none else some (b, rest)
    | none => none
  | r => some ([], r)

/-- `semver`'s `dot`: the next character must be a literal `'.'`. -/
def expectDot : List Char → Option (List Char)
  | '.' :: r => some r
  | _ => none

/-- `semver::Version::from_str`: `major.minor.patch` with optional
`-prerelease` and `+build`, and nothing after them; the `?`-chain of the
source is the `Option.bind` chain here. -/
def parseVersion (s : List Char) : Option Version :=
  if s = [] then none
  else
    (numericIdent s).bind fun p1 =>
      (expectDot p1.2).bind fun r2 =>
        (numericIdent r2).bind fun p2 =>
          (expectDot p2.2).bind fun r4 =>
            (numericIdent r4).bind fun p3 =>
              (parsePre p3.2).bind fun pr =>
                (parseBuild pr.2).bind fun bl =>
                  if bl.2 = [] then
                    some ⟨p1.1, p2.1, p3.1, String.mk pr.1, String.mk bl.1⟩
                  else none

/-- Splitting at the first occurrence of a separator, as Rust's
`str::split_once`. -/
def splitOnce (sep : Char) : List Char → Option (List Char × List Char)
  | [] => none
  | c :: rest =>
    if c = sep then some ([], rest)
    else
      match splitOnce sep rest with
      | some (a, b) => some (c :: a, b)
      | none => none

/-- The body of `TryFrom<String> for Tag` after the `@`-split: strip a leading
`'v'` from the version body; when it is absent the source falls back to the
entire original string (`unwrap_or(&value)`), not to the body. -/
def tagFromParts (value : String) (pfx : Option String) (tag : List Char) :
    Option Tag :=
  (parseVersion (match tag with
    | 'v' :: r => r
    | _ => value.data)).map (fun v => ⟨pfx, v⟩)

/-- `TryFrom<String> for Tag`: optional `<prefix>@`, then the version body. -/
def tagTryFrom (value : String) : Option Tag :=
  match splitOnce '@' value.data with
  | some (p, t) => tagFromParts value (some (String.mk p)) t
  | none => tagFromParts value none value.data

/-- The character of a decimal digit. -/
def digitChar (d : Nat) : Char :=
  Char.ofNat (48 + d)

/-- Fuel-driven digit rendering; the fuel only forces structural recursion
(so that the kernel can evaluate it) and is irrelevant once it exceeds the
number. -/
def natDigitsGo : Nat → Nat → List Char
  | 0, _ => []
  | fuel + 1, n =>
    if n < 10 then [digitChar n]
    else natDigitsGo fuel (n / 10) ++ [digitChar (n % 10)]

/-- Rendering digits of a natural number, as Rust's `u64` `Display`. -/
def natDigits (n : Nat) : List Char :=
  natDigitsGo (n + 1) n

/-- Rendering an integer, as Rust's `i32` `Display`. -/
def intRepr (x : Int) : List Char :=
  if x < 0 then '-' :: natDigits (-x).toNat else natDigits x.toNat

/-- `Display for Version`: `major.minor.patch`, then `-pre` when the
prerelease is non-empty, then `+build` when the build metadata is non-empty. -/
def renderVersion (v : Version) : List Char :=
  natDigits v.major ++ '.' :: natDigits v.minor ++ '.' :: natDigits v.patch
    ++ (if v.pre.data = [] then [] else '-' :: v.pre.data)
    ++ (if v.build.data = [] then [] else '+' :: v.build.data)

/-- `Display for Tag`: `<prefix>@` when the prefix is present, then `'v'`,
then the version. -/
def tagRender (t : Tag) : String :=
  String.mk ((match t.pfx with
    | some p => p.data ++ ['@']
    | none => []) ++ 'v' :: renderVersion t.v)

/-- The four bump intents read by `increment_tag` (the `Args` struct; its
CLI-only fields `verbose`, `no_push` and the tag prefix are not consumed by
the policy). -/
structure Args where
  major : Bool
  minor : Bool
  patch : Bool
  pre : Bool
deriving DecidableEq

/-- The decimal value of a digit string, folded left onto an accumulator as
Rust's integer parsers accumulate. -/
def dval (v : Nat) (ds : List Char) : Nat :=
  ds.foldl (fun a c => a * 10 + (c.toNat - 48)) v

/-- `value.parse::<i32>()`: optional single sign, then digits only, rejecting
the empty string and values outside `[-2 ^ 31, 2 ^ 31 - 1]` (Rust rejects
overflow during accumulation; since the accumulated value only grows, that is
the same as the bound on the final value). -/
def parseI32Mag (ds : List Char) (neg : Bool) : Option Int :=
  if ds = [] then none
  else if ds.all Char.isDigit then
    if neg then
      if dval 0 ds ≤ 2 ^ 31 then some (-(dval 0 ds : Int)) else none
    else
      if dval 0 ds ≤ 2 ^ 31 - 1 then some ((dval 0 ds : Nat) : Int) else none
  else none

/-- Sign handling of `i32`'s `FromStr`. -/
def parseI32 (s : List Char) : Option Int :=
  match s with
  | [] => none
  | c :: r =>
    if c = '+' then parseI32Mag r false
    else if c = '-' then parseI32Mag r true
    else parseI32Mag (c :: r) false

/-- `str::strip_prefix("pre")`. -/
def stripPre : List Char → Option (List Char)
  | 'p' :: 'r' :: 'e' :: r => some r
  | _ => none

/-- Two's-complement wraparound of an `i32` arithmetic result, the release
semantics of the `n + 1` in `next_prerelease`. -/
def wrap32 (x : Int) : Int :=
  (x + 2 ^ 31) % 2 ^ 32 - 2 ^ 31

/-- Wraparound of a `u64` arithmetic result, the release semantics of the
`+= 1` increments in `increment_tag`. -/
def wrap64 (n : Nat) : Nat :=
  n % 2 ^ 64

/-- `next_prerelease`: strip `"pre"`, parse the remainder as `i32`, add one;
on any failure fall back to `0`; format as `pre<attempt>`. -/
def next_prerelease (before : String) : String :=
  String.mk ('p' :: 'r' :: 'e' ::
    intRepr ((((stripPre before.data).bind parseI32).map
      (fun n => wrap32 (n + 1))).getD 0))

/-- `increment_tag`: the version-increment policy, block for block as in the
source. -/
def increment_tag (before : Tag) (params : Args) : Tag :=
  let next_v := { before.v with build := "" }
  let next_v :=
    if params.major then
      { next_v with
          major := wrap64 (next_v.major + 1)
          minor := 0
          patch := 0
          pre := if params.pre then next_prerelease before.v.pre else "" }
    else next_v
  let next_v :=
    if params.minor then
      { next_v with
          minor := wrap64 (next_v.minor + 1)
          patch := 0
          pre := if params.pre then next_prerelease before.v.pre else "" }
    else next_v
  let next_v :=
    if params.patch then
      let next_v :=
        if !before.is_prelease then
          { next_v with patch := wrap64 (next_v.patch + 1) }
        else next_v
      { next_v with pre := "" }
    else next_v
  let next_v :=
    if params.pre then
      if before.is_prelease then
        { next_v with pre := next_prerelease before.v.pre }
      else if !(params.major || params.minor || params.patch) then
        { next_v with
            patch := wrap64 (next_v.patch + 1)
            pre := "pre0" }
      else next_v
    else next_v
  { pfx := before.pfx, v := next_v }

/-- Insertion into a sorted list under `tagLe`. -/
def insertTag (t : Tag) : List Tag → List Tag
  | [] => [t]
  | x :: xs => if tagLe t x then t :: x :: xs else x :: insertTag t xs

/-- Sorting by the derived `Ord`, as `Vec::sort` in `main`. -/
def sortTags : List Tag → List Tag
  | [] => []
  | t :: ts => insertTag t (sortTags ts)

/-- The tag-selection pipeline of `main`: parse each candidate, discarding
failures, keep exact prefix matches, sort, and pop the last element,
defaulting to `Tag::initial()`. -/
def select_tag (names : List String) (pfx : Option String) : Tag :=
  ((sortTags ((names.filterMap tagTryFrom).filter
    (fun t => t.pfx == pfx))).getLast?).getD Tag.initial

/-- The prefix, when present, contains no `'@'`. -/
def noAtPfx : Option String → Bool
  | none => true
  | some p => !p.data.contains '@'

/-- Validity of a prerelease string as enforced by `semver::Prerelease`'s
constructor: empty, or fully consumed by the prerelease identifier parser. -/
def ValidPre (s : String) : Bool :=
  s.data == [] || identsGo true [] [] s.data == some (s.data, [])

/-! ### Ordering lemmas -/

theorem natCmp_self (n : Nat) : natCmp n n = .eq := by
  simp [natCmp]

theorem eq_then (o : Ordering) : Ordering.eq.then o = o := rfl

theorem then_eq (o : Ordering) : o.then Ordering.eq = o := by
  cases o <;> rfl

theorem strCmp_refl (l : List Char) : strCmp l l = .eq := by
  induction l with
  | nil => rfl
  | cons c cs ih => simp [strCmp, charCmp, natCmp_self, eq_then, ih]

theorem optStrCmp_refl (o : Option String) : optStrCmp o o = .eq := by
  cases o with
  | none => rfl
  | some s => simp [optStrCmp, strCmp_refl]

theorem splitDots_no_dot (l : List Char) (h : '.' ∉ l) : splitDots l = [l] := by
  induction l with
  | nil => rfl
  | cons c cs ih =>
    have hc : ¬ c = '.' := fun hc => h (hc ▸ List.mem_cons_self c cs)
    have hcs : '.' ∉ cs := fun hm => h (List.mem_cons_of_mem c hm)
    simp [splitDots, hc, ih hcs]

/-! ### Digit-rendering lemmas -/

theorem natDigitsGo_congr (n : Nat) : ∀ f1 f2, n < f1 → n < f2 →
    natDigitsGo f1 n = natDigitsGo f2 n := by
  induction n using Nat.strong_induction_on with
  | _ n ih =>
    intro f1 f2 h1 h2
    match f1, f2 with
    | g1 + 1, g2 + 1 =>
      by_cases h10 : n < 10
      · simp [natDigitsGo, h10]
      · have hdiv : n / 10 < n := Nat.div_lt_self (by omega) (by omega)
        simp only [natDigitsGo, if_neg h10]
        rw [ih (n / 10) hdiv g1 g2 (by omega) (by omega)]

theorem natDigits_eq (n : Nat) :
    natDigits n =
      if n < 10 then [digitChar n]
      else natDigits (n / 10) ++ [digitChar (n % 10)] := by
  by_cases h10 : n < 10
  · simp [natDigits, natDigitsGo, h10]
  · rw [if_neg h10]
    show natDigitsGo (n + 1) n = _
    simp only [natDigitsGo, if_neg h10]
    rw [natDigitsGo_congr (n / 10) n (n / 10 + 1) (by omega) (by omega)]
    rfl

theorem digitChar_toNat (d : Nat) (h : d < 10) : (digitChar d).toNat = 48 + d := by
  interval_cases d <;> decide

theorem digitChar_isDigit (d : Nat) (h : d < 10) : (digitChar d).isDigit = true := by
  interval_cases d <;> decide

theorem natDigits_ne_nil (n : Nat) : natDigits n ≠ [] := by
  rw [natDigits_eq]
  by_cases h10 : n < 10 <;> simp [h10]

theorem natDigits_all_digits (n : Nat) :
    (natDigits n).all Char.isDigit = true := by
  induction n using Nat.strong_induction_on with
  | _ n ih =>
    rw [natDigits_eq]
    by_cases h10 : n < 10
    · simp [h10, digitChar_isDigit n h10]
    · have hdiv : n / 10 < n := Nat.div_lt_self (by omega) (by omega)
      simp [h10, ih (n / 10) hdiv, digitChar_isDigit (n % 10) (Nat.mod_lt n (by omega))]

theorem dval_append (v : Nat) (xs : List Char) (c : Char) :
    dval v (xs ++ [c]) = dval v xs * 10 + (c.toNat - 48) := by
  simp [dval, List.foldl_append]

theorem natDigits_dval (n : Nat) : dval 0 (natDigits n) = n := by
  induction n using Nat.strong_induction_on with
  | _ n ih =>
    rw [natDigits_eq]
    by_cases h10 : n < 10
    · simp [h10, dval, digitChar_toNat n h10]
    · have hdiv : n / 10 < n := Nat.div_lt_self (by omega) (by omega)
      rw [if_neg h10, dval_append, ih (n / 10) hdiv,
        digitChar_toNat (n % 10) (Nat.mod_lt n (by omega))]
      omega

theorem natDigits_cons (n : Nat) :
    ∃ c ds, natDigits n = c :: ds ∧ c.isDigit = true := by
  rcases hd : natDigits n with _ | ⟨c, ds⟩
  · exact absurd hd (natDigits_ne_nil n)
  · refine ⟨c, ds, rfl, ?_⟩
    have := natDigits_all_digits n
    rw [hd] at this
    simp only [List.all_cons, Bool.and_eq_true] at this
    exact this.1

theorem isDigit_ne_sign (c : Char) (h : c.isDigit = true) :
    ¬ c = '+' ∧ ¬ c = '-' := by
  constructor <;> rintro rfl <;> simp at h

/-! ### `parse::<i32>` and `next_prerelease` lemmas -/

theorem parseI32_natDigits (n : Nat) (h : n ≤ 2 ^ 31 - 1) :
    parseI32 (natDigits n) = some (n : Int) := by
  obtain ⟨c, ds, hcd, hdig⟩ := natDigits_cons n
  have hsign := isDigit_ne_sign c hdig
  rw [hcd, parseI32, if_neg hsign.1, if_neg hsign.2, ← hcd, parseI32Mag,
    if_neg (natDigits_ne_nil n), if_pos (natDigits_all_digits n)]
  simp [natDigits_dval, h]
  omega

theorem wrap32_id (x : Int) (h1 : -2 ^ 31 ≤ x) (h2 : x ≤ 2 ^ 31 - 1) :
    wrap32 x = x := by
  unfold wrap32
  omega

theorem parseI32_neg_natDigits (n : Nat) (h : n ≤ 2 ^ 31) :
    parseI32 ('-' :: natDigits n) = some (-(n : Int)) := by
  rw [parseI32, if_neg (by decide), if_pos rfl, parseI32Mag,
    if_neg (natDigits_ne_nil n), if_pos (natDigits_all_digits n)]
  simp [natDigits_dval]
  omega

/-! ### Round-trip lemmas: numeric identifiers -/

theorem mk_data (s : String) : String.mk s.data = s := rfl

theorem dval_le (ds : List Char) : ∀ v : Nat, v ≤ dval v ds := by
  induction ds with
  | nil => intro v; simp [dval]
  | cons c cs ih =>
    intro v
    have h1 : v ≤ v * 10 + (c.toNat - 48) := by omega
    have h2 : dval v (c :: cs) = dval (v * 10 + (c.toNat - 48)) cs := rfl
    rw [h2]
    exact le_trans h1 (ih _)

theorem numGo_stop (rest : List Char) (v len : Nat) (hlen : 0 < len)
    (hd : headDigit rest = false) : numGo rest v len = some (v, rest) := by
  cases rest with
  | nil => simp [numGo, hlen]
  | cons c r =>
    have hc : c.isDigit = false := hd
    simp [numGo, hc, hlen]

theorem numGo_digits : ∀ (ds rest : List Char) (v len : Nat),
    ds.all Char.isDigit = true → 0 < v → dval v ds ≤ 2 ^ 64 - 1 → 0 < len →
    headDigit rest = false → numGo (ds ++ rest) v len = some (dval v ds, rest) := by
  intro ds
  induction ds with
  | nil =>
    intro rest v len _ _ _ hlen hd
    simpa [dval] using numGo_stop rest v len hlen hd
  | cons c cs ih =>
    intro rest v len hall hv hbound hlen hd
    rw [List.all_cons, Bool.and_eq_true] at hall
    have hdv : dval v (c :: cs) = dval (v * 10 + (c.toNat - 48)) cs := rfl
    rw [hdv] at hbound ⊢
    have hno : ¬ (v = 0 ∧ 0 < len) := by omega
    have hb' : v * 10 + (c.toNat - 48) ≤ 2 ^ 64 - 1 :=
      le_trans (dval_le cs _) hbound
    show numGo (c :: (cs ++ rest)) v len = _
    simp only [numGo, hall.1, if_true, if_neg hno, if_pos hb']
    exact ih rest _ (len + 1) hall.2 (by omega) hbound (by omega) hd

theorem natDigits_spec (n : Nat) :
    ∃ c ds, natDigits n = c :: ds ∧ c.isDigit = true ∧
      dval (c.toNat - 48) ds = n ∧ (1 ≤ n → 0 < c.toNat - 48) := by
  induction n using Nat.strong_induction_on with
  | _ n ih =>
    by_cases h10 : n < 10
    · refine ⟨digitChar n, [], ?_, digitChar_isDigit n h10, ?_, ?_⟩
      · rw [natDigits_eq, if_pos h10]
      · simp [dval, digitChar_toNat n h10]
      · intro h1; rw [digitChar_toNat n h10]; omega
    · have hdiv : n / 10 < n := Nat.div_lt_self (by omega) (by omega)
      obtain ⟨c, ds, hcd, hdig, hval, hp⟩ := ih (n / 10) hdiv
      refine ⟨c, ds ++ [digitChar (n % 10)], ?_, hdig, ?_, ?_⟩
      · rw [natDigits_eq, if_neg h10, hcd]; simp
      · rw [dval_append, hval, digitChar_toNat (n % 10) (Nat.mod_lt n (by omega))]
        omega
      · intro _; exact hp (by omega)

theorem numericIdent_render (n : Nat) (rest : List Char) (hn : n ≤ 2 ^ 64 - 1)
    (hd : headDigit rest = false) :
    numericIdent (natDigits n ++ rest) = some (n, rest) := by
  rcases Nat.eq_zero_or_pos n with rfl | hpos
  · have h0 : natDigits 0 = ['0'] := rfl
    rw [h0]
    show numGo ('0' :: rest) 0 0 = some (0, rest)
    rw [show numGo ('0' :: rest) 0 0 = numGo rest 0 1 from rfl]
    exact numGo_stop rest 0 1 (by omega) hd
  · obtain ⟨c, ds, hcd, hdig, hval, hcp⟩ := natDigits_spec n
    have hcpos : 0 < c.toNat - 48 := hcp hpos
    have hall : ds.all Char.isDigit = true := by
      have := natDigits_all_digits n
      rw [hcd, List.all_cons, Bool.and_eq_true] at this
      exact this.2
    rw [hcd]
    show numGo (c :: (ds ++ rest)) 0 0 = some (n, rest)
    have hno : ¬ ((0 : Nat) = 0 ∧ (0 : Nat) < 0) := by omega
    have hb0 : 0 * 10 + (c.toNat - 48) ≤ 2 ^ 64 - 1 := by
      have := dval_le ds (c.toNat - 48)
      omega
    simp only [numGo, hdig, if_true, if_neg hno, if_pos hb0]
    have hgoal := numGo_digits ds rest (c.toNat - 48) 1 hall hcpos
      (by rw [hval]; exact hn) (by omega) hd
    rw [hval] at hgoal
    simpa using hgoal

/-! ### Round-trip lemmas: identifiers, splitting, rendering -/

theorem headDigit_dot (r : List Char) : headDigit ('.' :: r) = false := rfl

theorem headDigit_dash (r : List Char) : headDigit ('-' :: r) = false := rfl

theorem headDigit_nil : headDigit [] = false := rfl

theorem identsGo_chars (pp : Bool) : ∀ (l seg out res : List Char),
    identsGo pp seg out l = some (res, []) →
    ∀ c ∈ l, isIdentChar c = true ∨ c = '.' := by
  intro l
  induction l with
  | nil => intro seg out res _ c hc; exact absurd hc (List.not_mem_nil c)
  | cons a l ih =>
    intro seg out res h c hc
    simp only [identsGo] at h
    by_cases h1 : isIdentChar a = true
    · rw [if_pos h1] at h
      rcases List.mem_cons.mp hc with rfl | hc'
      · exact Or.inl h1
      · exact ih _ _ _ h c hc'
    · rw [if_neg h1] at h
      by_cases h2 : a = '.'
      · rw [if_pos h2] at h
        by_cases h3 : seg = []
        · rw [if_pos h3] at h; exact absurd h (by simp)
        · rw [if_neg h3] at h
          by_cases h4 : badZero pp seg = true
          · rw [if_pos h4] at h; exact absurd h (by simp)
          · rw [if_neg h4] at h
            rcases List.mem_cons.mp hc with rfl | hc'
            · exact Or.inr h2
            · exact ih _ _ _ h c hc'
      · rw [if_neg h2] at h
        by_cases h3 : seg = []
        · rw [if_pos h3] at h
          by_cases h4 : out = []
          · rw [if_pos h4] at h; simp at h
          · rw [if_neg h4] at h; exact absurd h (by simp)
        · rw [if_neg h3] at h
          by_cases h4 : badZero pp seg = true
          · rw [if_pos h4] at h; exact absurd h (by simp)
          · rw [if_neg h4] at h; simp at h

theorem splitOnce_not_mem (sep : Char) (l : List Char) (h : sep ∉ l) :
    splitOnce sep l = none := by
  induction l with
  | nil => rfl
  | cons c r ih =>
    have hc : ¬ c = sep := fun e => h (e ▸ List.mem_cons_self c r)
    have hr : sep ∉ r := fun m => h (List.mem_cons_of_mem c m)
    simp [splitOnce, hc, ih hr]

theorem splitOnce_append (sep : Char) (p r : List Char) (h : sep ∉ p) :
    splitOnce sep (p ++ sep :: r) = some (p, r) := by
  induction p with
  | nil => simp [splitOnce]
  | cons c ps ih =>
    have hc : ¬ c = sep := fun e => h (e ▸ List.mem_cons_self c ps)
    have hp : sep ∉ ps := fun m => h (List.mem_cons_of_mem c m)
    simp [splitOnce, hc, ih hp]

theorem natDigits_no_at (x : Nat) : '@' ∉ natDigits x := by
  intro hmem
  have := List.all_eq_true.mp (natDigits_all_digits x) '@' hmem
  exact absurd this (by decide)

theorem validPre_no_at (pre : String) (hv : ValidPre pre = true) :
    '@' ∉ pre.data := by
  intro hmem
  by_cases hpd : pre.data = []
  · rw [hpd] at hmem; exact absurd hmem (List.not_mem_nil _)
  · have hgo : identsGo true [] [] pre.data = some (pre.data, []) := by
      simp only [ValidPre, Bool.or_eq_true, beq_iff_eq] at hv
      rcases hv with hv | hv
      · exact absurd hv hpd
      · exact hv
    rcases identsGo_chars true pre.data [] [] pre.data hgo '@' hmem with h | h
    · exact absurd h (by decide)
    · exact absurd h (by decide)

theorem validPre_go (pre : String) (hv : ValidPre pre = true)
    (hpd : ¬ pre.data = []) :
    identsGo true [] [] pre.data = some (pre.data, []) := by
  simp only [ValidPre, Bool.or_eq_true, beq_iff_eq] at hv
  rcases hv with hv | hv
  · exact absurd hv hpd
  · exact hv

theorem tagFromParts_v (value : String) (pfx : Option String)
    (body : List Char) :
    tagFromParts value pfx ('v' :: body) =
      (parseVersion body).map (fun v => (⟨pfx, v⟩ : Tag)) := rfl

theorem renderVersion_eq (M m k : Nat) (pre : String) :
    renderVersion ⟨M, m, k, pre, ""⟩ =
      natDigits M ++ '.' :: (natDigits m ++ '.' ::
        (natDigits k ++ (if pre.data = [] then [] else '-' :: pre.data))) := by
  have hb : ("" : String).data = [] := rfl
  simp [renderVersion, hb]

theorem renderVersion_no_at (M m k : Nat) (pre : String)
    (hpre : ValidPre pre = true) :
    '@' ∉ renderVersion ⟨M, m, k, pre, ""⟩ := by
  rw [renderVersion_eq]
  intro hmem
  rcases List.mem_append.mp hmem with h | h
  · exact natDigits_no_at M h
  rcases List.mem_cons.mp h with h | h
  · exact absurd h (by decide)
  rcases List.mem_append.mp h with h | h
  · exact natDigits_no_at m h
  rcases List.mem_cons.mp h with h | h
  · exact absurd h (by decide)
  rcases List.mem_append.mp h with h | h
  · exact natDigits_no_at k h
  by_cases hpd : pre.data = []
  · rw [if_pos hpd] at h; exact absurd h (List.not_mem_nil _)
  · rw [if_neg hpd] at h
    rcases List.mem_cons.mp h with h | h
    · exact absurd h (by decide)
    · exact validPre_no_at pre hpre h

/-! ### The parse-render round trip -/

theorem parseVersion_render (M m k : Nat) (pre : String)
    (hM : M ≤ 2 ^ 64 - 1) (hm : m ≤ 2 ^ 64 - 1) (hk : k ≤ 2 ^ 64 - 1)
    (hpre : ValidPre pre = true) :
    parseVersion (renderVersion ⟨M, m, k, pre, ""⟩) = some ⟨M, m, k, pre, ""⟩ := by
  rw [renderVersion_eq]
  have hne : natDigits M ++ '.' :: (natDigits m ++ '.' ::
      (natDigits k ++ (if pre.data = [] then [] else '-' :: pre.data))) ≠ [] := by
    simp [natDigits_ne_nil M]
  rw [parseVersion, if_neg hne]
  rw [numericIdent_render M _ hM (headDigit_dot _)]
  simp only [Option.some_bind]
  rw [show expectDot ('.' :: (natDigits m ++ '.' ::
      (natDigits k ++ (if pre.data = [] then [] else '-' :: pre.data)))) =
    some (natDigits m ++ '.' ::
      (natDigits k ++ (if pre.data = [] then [] else '-' :: pre.data))) from rfl]
  simp only [Option.some_bind]
  rw [numericIdent_render m _ hm (headDigit_dot _)]
  simp only [Option.some_bind]
  rw [show expectDot ('.' :: (natDigits k ++
      (if pre.data = [] then [] else '-' :: pre.data))) =
    some (natDigits k ++ (if pre.data = [] then [] else '-' :: pre.data))
    from rfl]
  simp only [Option.some_bind]
  by_cases hpd : pre.data = []
  · rw [if_pos hpd, numericIdent_render k [] hk headDigit_nil]
    simp only [Option.some_bind]
    have hpre_eq : pre = "" := by
      cases pre with
      | mk d => cases hpd; rfl
    simp [parsePre, parseBuild, hpre_eq]
  · rw [if_neg hpd, numericIdent_render k _ hk (headDigit_dash _)]
    simp only [Option.some_bind]
    have hgo := validPre_go pre hpre hpd
    simp [parsePre, parseBuild, hgo, hpd, mk_data]

/-! ### Claim theorems: round trip -/

/-- Claim C5, counterexample: the tag with prefix `a@b` (empty build
metadata) renders to `a@b@v1.2.3`, which parsing splits at the *first* `@`;
the body `b@v1.2.3` loses its `v` and the fallback re-parse of the whole
string fails, so `Parse(Render(t))` is an error, not `t`. -/
theorem claim5_counterexample :
    tagTryFrom (tagRender ⟨some "a@b", ⟨1, 2, 3, "", ""⟩⟩) = none ∧
    (⟨some "a@b", ⟨1, 2, 3, "", ""⟩⟩ : Tag).v.build = "" :=
  ⟨by decide, rfl⟩

/-- Claim C5, amended: for every Tag with empty build metadata, a well-formed
prerelease (the invariant `semver::Prerelease` enforces), `u64`-range numeric
components (the Rust field type), and whose prefix — when present — contains
no `'@'`, parsing is a left-inverse of rendering: `Parse(Render(t)) = t`. -/
theorem claim5_amended (t : Tag) (hbuild : t.v.build = "")
    (hpre : ValidPre t.v.pre = true)
    (hM : t.v.major ≤ 2 ^ 64 - 1) (hm : t.v.minor ≤ 2 ^ 64 - 1)
    (hk : t.v.patch ≤ 2 ^ 64 - 1) (hat : noAtPfx t.pfx = true) :
    tagTryFrom (tagRender t) = some t := by
  rcases t with ⟨pfx, ⟨M, m, k, pre, bld⟩⟩
  obtain rfl : bld = "" := hbuild
  have hbody := parseVersion_render M m k pre hM hm hk hpre
  have hnoat := renderVersion_no_at M m k pre hpre
  cases pfx with
  | none =>
    have hsplit : splitOnce '@' ('v' :: renderVersion ⟨M, m, k, pre, ""⟩) =
        none := by
      apply splitOnce_not_mem
      intro hmem
      rcases List.mem_cons.mp hmem with h | h
      · exact absurd h (by decide)
      · exact hnoat h
    show tagTryFrom (String.mk ([] ++ 'v' :: renderVersion ⟨M, m, k, pre, ""⟩)) = _
    rw [show ([] ++ 'v' :: renderVersion ⟨M, m, k, pre, ""⟩) =
      'v' :: renderVersion ⟨M, m, k, pre, ""⟩ from rfl]
    rw [tagTryFrom]
    rw [show (String.mk ('v' :: renderVersion ⟨M, m, k, pre, ""⟩)).data =
      'v' :: renderVersion ⟨M, m, k, pre, ""⟩ from rfl, hsplit]
    show tagFromParts _ none ('v' :: renderVersion ⟨M, m, k, pre, ""⟩) = _
    rw [tagFromParts_v, hbody]
    rfl
  | some p =>
    have hp : '@' ∉ p.data := by
      simp only [noAtPfx, Bool.not_eq_true'] at hat
      simpa using hat
    have hsplit := splitOnce_append '@' p.data
      ('v' :: renderVersion ⟨M, m, k, pre, ""⟩) hp
    show tagTryFrom (String.mk ((p.data ++ ['@']) ++
      'v' :: renderVersion ⟨M, m, k, pre, ""⟩)) = _
    rw [tagTryFrom]
    rw [show (String.mk ((p.data ++ ['@']) ++
      'v' :: renderVersion ⟨M, m, k, pre, ""⟩)).data =
      (p.data ++ ['@']) ++ 'v' :: renderVersion ⟨M, m, k, pre, ""⟩ from rfl]
    rw [show (p.data ++ ['@']) ++
      ('v' :: renderVersion ⟨M, m, k, pre, ""⟩) =
      p.data ++ '@' :: ('v' :: renderVersion ⟨M, m, k, pre, ""⟩) from by simp]
    rw [hsplit]
    show tagFromParts _ (some (String.mk p.data))
      ('v' :: renderVersion ⟨M, m, k, pre, ""⟩) = _
    rw [mk_data, tagFromParts_v, hbody]
    rfl

/-- Claim C5, witness for the amended theorem: `app@v1.2.3-pre1` round
trips. -/
theorem claim5_witness :
    tagTryFrom (tagRender ⟨some "app", ⟨1, 2, 3, "pre1", ""⟩⟩) =
      some ⟨some "app", ⟨1, 2, 3, "pre1", ""⟩⟩ :=
  claim5_amended ⟨some "app", ⟨1, 2, 3, "pre1", ""⟩⟩ rfl (by decide) (by decide)
    (by decide) (by decide) (by decide)

/-! ### Claim theorems: parsing and selection -/

/-- Claim C2: the claim is right and the code has a slip.  For the input
`app@1.2.3` the `@`-delimited version body `1.2.3` conforms to semver syntax
(second conjunct), so the claim requires parsing to succeed with prefix
`app`; but `Tag::try_from` fails (first conjunct), because the missing-`v`
fallback `unwrap_or(&value)` re-parses the entire original string — prefix
and `@` included — instead of the body.  With the `v` marker present, or
with no prefix, parsing behaves as claimed (last two conjuncts). -/
theorem claim2_code_bug :
    tagTryFrom "app@1.2.3" = none ∧
    parseVersion "1.2.3".data = some ⟨1, 2, 3, "", ""⟩ ∧
    tagTryFrom "app@v1.2.3" = some ⟨some "app", ⟨1, 2, 3, "", ""⟩⟩ ∧
    tagTryFrom "1.2.3" = some ⟨none, ⟨1, 2, 3, "", ""⟩⟩ :=
  ⟨by decide, by decide, by decide, by decide⟩

/-- Claim C3, counterexample: with requested prefix `app` and no candidates,
selection yields `Tag::initial()`, whose prefix is `none` — it does not carry
the caller-supplied prefix as the claim states. -/
theorem claim3_counterexample :
    select_tag [] (some "app") = Tag.initial ∧
    ¬ (select_tag [] (some "app")).pfx = some "app" :=
  ⟨by decide, by decide⟩

/-- Claim C3, amended: when no parsable candidate's prefix equals the
requested prefix (including an empty or all-unparsable collection), selection
yields the initial tag `0.1.0` with no prerelease and *no prefix* — the
caller-supplied prefix is not attached to it. -/
theorem claim3_amended (names : List String) (pfx : Option String)
    (h : ∀ t ∈ names.filterMap tagTryFrom, ¬ t.pfx = pfx) :
    select_tag names pfx = Tag.initial := by
  have hf : (names.filterMap tagTryFrom).filter (fun t => t.pfx == pfx) = [] := by
    rw [List.filter_eq_nil_iff]
    intro a ha
    simpa using h a ha
  rw [select_tag, hf]
  rfl

/-- Claim C3, witness: one unparsable candidate and one with a different
prefix. -/
theorem claim3_witness :
    select_tag ["garbage", "other@v1.0.0"] (some "app") = Tag.initial :=
  claim3_amended ["garbage", "other@v1.0.0"] (some "app") (by decide)

/-- Claim C8, counterexample: the label `pre-5` is not of the form `pre<N>`
with `N` a non-negative integer, so the claim requires the successor `pre0`;
but `next_prerelease` parses the suffix as a *signed* `i32` and produces
`pre-4`. -/
theorem claim8_counterexample :
    next_prerelease "pre-5" = "pre-4" ∧ ¬ next_prerelease "pre-5" = "pre0" :=
  ⟨by decide, by decide⟩

/-- Claim C8, amended: the successor function maps `pre<I>` to `pre<I+1>` for
any `i32`-parsable integer `I` — non-negative ones as the claim states
(provided `I + 1` stays in `i32` range), but also negative ones such as
`pre-5 ↦ pre-4`; a label without a parsable `i32` suffix after `pre`
(including any `N` beyond `i32` range) or without the `pre` marker maps to
`pre0`. -/
theorem claim8_amended :
    (∀ n : Nat, n + 1 ≤ 2 ^ 31 - 1 →
      next_prerelease (String.mk ('p' :: 'r' :: 'e' :: natDigits n)) =
        String.mk ('p' :: 'r' :: 'e' :: natDigits (n + 1))) ∧
    (∀ n : Nat, 1 ≤ n → n ≤ 2 ^ 31 →
      next_prerelease (String.mk ('p' :: 'r' :: 'e' :: '-' :: natDigits n)) =
        String.mk ('p' :: 'r' :: 'e' :: intRepr (1 - (n : Int)))) ∧
    (∀ s : String, (stripPre s.data).bind parseI32 = none →
      next_prerelease s = "pre0") := by
  refine ⟨?_, ?_, ?_⟩
  · intro n h
    have hb : n ≤ 2 ^ 31 - 1 := by omega
    have hw : wrap32 ((n : Int) + 1) = (n : Int) + 1 :=
      wrap32_id _ (by omega) (by omega)
    have hint : intRepr ((n : Int) + 1) = natDigits (n + 1) := by
      have ht : ((n : Int) + 1).toNat = n + 1 := by omega
      rw [intRepr, if_neg (by omega), ht]
    simp only [next_prerelease]
    rw [show stripPre ('p' :: 'r' :: 'e' :: natDigits n) = some (natDigits n)
        from rfl]
    simp [parseI32_natDigits n hb, hw, hint]
  · intro n h1 h2
    have hw : wrap32 (1 - (n : Int)) = 1 - (n : Int) :=
      wrap32_id _ (by omega) (by omega)
    simp only [next_prerelease]
    rw [show stripPre ('p' :: 'r' :: 'e' :: '-' :: natDigits n) =
        some ('-' :: natDigits n) from rfl]
    have heq : -(n : Int) + 1 = 1 - (n : Int) := by omega
    simp [parseI32_neg_natDigits n h2, heq, hw]
  · intro s h
    rw [next_prerelease, h]
    decide

/-- Claim C8, witness: `pre2 ↦ pre3`, `pre-5 ↦ pre-4`, `alpha ↦ pre0`. -/
theorem claim8_witness :
    next_prerelease (String.mk ('p' :: 'r' :: 'e' :: natDigits 2)) =
      String.mk ('p' :: 'r' :: 'e' :: natDigits 3) ∧
    next_prerelease (String.mk ('p' :: 'r' :: 'e' :: '-' :: natDigits 5)) =
      String.mk ('p' :: 'r' :: 'e' :: intRepr (1 - ((5 : Nat) : Int))) ∧
    next_prerelease "alpha" = "pre0" :=
  ⟨claim8_amended.1 2 (by decide), claim8_amended.2.1 5 (by decide) (by decide),
    claim8_amended.2.2 "alpha" (by decide)⟩

/-! ### Claim theorems: ordering -/

/-- Claim C1, counterexample: with equal prefixes and equal `(0,1,0)`, the tag
`0.1.0-pre2` compares *greater* than `0.1.0-pre10`, because `semver` compares
the alphanumeric identifiers `pre2` and `pre10` byte-wise, not by the numeric
suffix; the claim as stated requires `pre2 < pre10`. -/
theorem claim1_counterexample :
    tagCmp ⟨none, ⟨0, 1, 0, "pre2", ""⟩⟩ ⟨none, ⟨0, 1, 0, "pre10", ""⟩⟩ = .gt ∧
    ¬ tagLt ⟨none, ⟨0, 1, 0, "pre2", ""⟩⟩ ⟨none, ⟨0, 1, 0, "pre10", ""⟩⟩ ∧
    tagLt ⟨none, ⟨0, 1, 0, "pre10", ""⟩⟩ ⟨none, ⟨0, 1, 0, "pre2", ""⟩⟩ := by
  refine ⟨by decide, by decide, by decide⟩

/-- Claim C1, amended: for two tags with equal prefix, equal
`(major, minor, patch)` and empty build metadata whose prerelease labels are
single non-empty identifiers (no dots) that are not purely numeric — which
covers every `pre<N>` label — the tag order compares the labels byte-wise
lexicographically (so `pre10` sorts before `pre2`); no numeric comparison of
the `N` suffix is performed. -/
theorem claim1_amended (o : Option String) (M m k : Nat) (a b : String)
    (ha : a.data ≠ []) (hb : b.data ≠ [])
    (hda : '.' ∉ a.data) (hdb : '.' ∉ b.data)
    (hna : a.data.all Char.isDigit = false)
    (hnb : b.data.all Char.isDigit = false) :
    tagCmp ⟨o, ⟨M, m, k, a, ""⟩⟩ ⟨o, ⟨M, m, k, b, ""⟩⟩ = strCmp a.data b.data := by
  have hbuild : buildCmp "" "" = Ordering.eq := rfl
  simp only [tagCmp, versionCmp, optStrCmp_refl, natCmp_self, eq_then, hbuild,
    then_eq]
  rw [preCmp, if_neg ha, if_neg hb, splitDots_no_dot a.data hda,
    splitDots_no_dot b.data hdb]
  cases hs : strCmp a.data b.data <;>
    simp [preIdentsCmp, identCmp, hna, hnb, hs]

/-- Claim C1, witness for the amended theorem at the labels `pre10` and
`pre2`. -/
theorem claim1_witness :
    tagCmp ⟨none, ⟨0, 1, 0, "pre10", ""⟩⟩ ⟨none, ⟨0, 1, 0, "pre2", ""⟩⟩ =
      strCmp "pre10".data "pre2".data :=
  claim1_amended none 0 1 0 "pre10" "pre2" (by decide) (by decide) (by decide)
    (by decide) (by decide) (by decide)

/-- Claim C4, counterexample: the tag `a@v2.0.0` sorts strictly before
`b@v1.0.0` although its version is strictly greater, because the derived
order compares the prefix field first; the claim requires the smaller version
to sort first whatever the prefixes are. -/
theorem claim4_counterexample :
    tagCmp ⟨some "a", ⟨2, 0, 0, "", ""⟩⟩ ⟨some "b", ⟨1, 0, 0, "", ""⟩⟩ = .lt ∧
    versionCmp ⟨2, 0, 0, "", ""⟩ ⟨1, 0, 0, "", ""⟩ = .gt := by
  refine ⟨by decide, by decide⟩

/-- Claim C4, amended: the total order on tags compares the prefix first
(absent before present, present prefixes byte-wise lexicographically) and
uses semantic-versioning precedence on the versions only between tags with
equal prefixes. -/
theorem claim4_amended (t1 t2 : Tag) (h : t1.pfx = t2.pfx) :
    tagCmp t1 t2 = versionCmp t1.v t2.v := by
  rw [tagCmp, h, optStrCmp_refl, eq_then]

/-- Claim C4, witness for the amended theorem at two equal-prefix tags. -/
theorem claim4_witness :
    tagCmp ⟨some "a", ⟨1, 0, 0, "", ""⟩⟩ ⟨some "a", ⟨2, 0, 0, "", ""⟩⟩ =
      versionCmp ⟨1, 0, 0, "", ""⟩ ⟨2, 0, 0, "", ""⟩ :=
  claim4_amended ⟨some "a", ⟨1, 0, 0, "", ""⟩⟩ ⟨some "a", ⟨2, 0, 0, "", ""⟩⟩ rfl

/-! ### Claim theorems: increment policy -/

/-- Claim C6, counterexample: with `bump_patch` and `bump_pre` both set and
previous tag `0.1.1-pre5`, the prerelease is *not* cleared: the result is
`0.1.1-pre6`; the claim requires the prerelease to be cleared for any value
of `bump_pre`. -/
theorem claim6_counterexample :
    (increment_tag ⟨none, ⟨0, 1, 1, "pre5", ""⟩⟩
      ⟨false, false, true, true⟩).v.pre = "pre6" ∧
    ¬ (increment_tag ⟨none, ⟨0, 1, 1, "pre5", ""⟩⟩
      ⟨false, false, true, true⟩).v.pre = "" := by
  refine ⟨by decide, by decide⟩

/-- Claim C6, amended: with `bump_patch` set and neither `bump_major` nor
`bump_minor`, the patch is incremented by one in `u64` arithmetic (modulo
`2 ^ 64`) exactly when the previous version was not a prerelease, and the
prerelease is cleared *unless* `bump_pre` is also set and the previous
version was a prerelease, in which case it advances to the successor of the
previous prerelease label. -/
theorem claim6_amended (before : Tag) (b : Bool) :
    increment_tag before ⟨false, false, true, b⟩ =
      ⟨before.pfx,
        { before.v with
            build := ""
            patch := if before.is_prelease then before.v.patch
                     else wrap64 (before.v.patch + 1)
            pre := if b && before.is_prelease then next_prerelease before.v.pre
                   else "" }⟩ := by
  rcases before with ⟨p, ⟨M, m, k, pre, bld⟩⟩
  by_cases h : pre = "" <;> cases b <;>
    simp [increment_tag, Tag.is_prelease, beq_iff_eq, h]

/-- Claim C7: with only `bump_pre` set, the policy advances the prerelease
label by `next_prerelease` when the previous version was a prerelease
(keeping major.minor.patch), and otherwise bumps the patch by one in `u64`
arithmetic (modulo `2 ^ 64`) and starts the series at `pre0`; in particular
`0.1.1-pre5 ↦ 0.1.1-pre6` and `0.1.1 ↦ 0.1.2-pre0`. -/
theorem claim7_pre_only :
    (∀ before : Tag,
      increment_tag before ⟨false, false, false, true⟩ =
        ⟨before.pfx,
          { before.v with
              build := ""
              patch := if before.is_prelease then before.v.patch
                       else wrap64 (before.v.patch + 1)
              pre := if before.is_prelease then next_prerelease before.v.pre
                     else "pre0" }⟩) ∧
    increment_tag ⟨none, ⟨0, 1, 1, "pre5", ""⟩⟩ ⟨false, false, false, true⟩ =
      ⟨none, ⟨0, 1, 1, "pre6", ""⟩⟩ ∧
    increment_tag ⟨none, ⟨0, 1, 1, "", ""⟩⟩ ⟨false, false, false, true⟩ =
      ⟨none, ⟨0, 1, 2, "pre0", ""⟩⟩ := by
  refine ⟨?_, by decide, by decide⟩
  intro before
  rcases before with ⟨p, ⟨M, m, k, pre, bld⟩⟩
  by_cases h : pre = "" <;>
    simp [increment_tag, Tag.is_prelease, beq_iff_eq, h]

/-- Claim C9: whatever the previous tag (build metadata included) and
whatever the combination of bump intents, the tag produced by the increment
policy has empty build metadata. -/
theorem claim9_build_cleared (before : Tag) (params : Args) :
    (increment_tag before params).v.build = "" := by
  rcases before with ⟨p, ⟨M, m, k, pre, bld⟩⟩
  rcases params with ⟨ma, mi, pa, pr⟩
  by_cases h : pre = "" <;>
    cases ma <;> cases mi <;> cases pa <;> cases pr <;>
      simp [increment_tag, Tag.is_prelease, beq_iff_eq, h]

/-- Claim C10: with all four bump intents false, the policy returns the
previous tag's prefix, major, minor, patch and prerelease unchanged and only
clears the build metadata; it never defaults to a bump on its own. -/
theorem claim10_frame (before : Tag) :
    (increment_tag before ⟨false, false, false, false⟩).pfx = before.pfx ∧
    (increment_tag before ⟨false, false, false, false⟩).v.major = before.v.major ∧
    (increment_tag before ⟨false, false, false, false⟩).v.minor = before.v.minor ∧
    (increment_tag before ⟨false, false, false, false⟩).v.patch = before.v.patch ∧
    (increment_tag before ⟨false, false, false, false⟩).v.pre = before.v.pre ∧
    (increment_tag before ⟨false, false, false, false⟩).v.build = "" :=
  ⟨rfl, rfl, rfl, rfl, rfl, rfl⟩

end Nutag
